import Mathlib

/-!
# Verification of the contact-discovery API route

Shallow embedding of the Next.js route (`src/unnamed/part_000`) that derives a
company domain from a website string, discovers an email local-part pattern,
parses profile-reference slugs into people, synthesizes candidate emails and
deduplicates the batch of results.

Modelling conventions:
* JS strings are Lean `String`s; the JS string operations used by the route
  (`toLowerCase`, `trim`, `startsWith`, `endsWith`, `includes`, `slice`,
  `split`, `replace` with the literal character classes of the source) are
  modelled by executable functions on `String.data`, restricted to the ASCII
  range (the route only manipulates ASCII apart from the NFD fold noted at
  `sanitizePart`).
* `new URL(...)` is modelled by `parseURL`, an executable restriction of the
  WHATWG parser to absolute URLs with the special schemes the route can
  produce; parse failure (a thrown `TypeError`) is `none`.
* The page fetcher `fetchHtml` (network, timeout) is an external collaborator
  and is passed as an explicit oracle `fetch : String → Option String`;
  `none` models every failure path (the JS function never throws).
-/

namespace ContactRoute

/-- ASCII lowercase letter, the `[a-z]` class of the source's regexes. -/
def isAsciiLower (c : Char) : Bool := 'a' ≤ c && c ≤ 'z'

/-- ASCII uppercase letter. -/
def isAsciiUpper (c : Char) : Bool := 'A' ≤ c && c ≤ 'Z'

/-- ASCII letter, the `[a-z]/i` class of the source's regexes. -/
def isAsciiLetter (c : Char) : Bool := isAsciiUpper c || isAsciiLower c

/-- ASCII digit, the `\d` / `[0-9]` class. -/
def isDigitChar (c : Char) : Bool := c.isDigit

/-- The `\s` class restricted to ASCII whitespace. -/
def isWsChar (c : Char) : Bool :=
  c = ' ' || c = '\t' || c = '\n' || c = '\r' || c = '\x0b' || c = '\x0c'

/-- Models `String.prototype.toLowerCase` on ASCII data. -/
def lowerStr (s : String) : String := ⟨s.data.map Char.toLower⟩

/-- Models `String.prototype.trim` (ASCII whitespace). -/
def trimStr (s : String) : String :=
  ⟨(((s.data.dropWhile isWsChar).reverse).dropWhile isWsChar).reverse⟩

/-- Models `s.startsWith(pre)`. -/
def startsWithStr (s pre : String) : Bool := pre.data.isPrefixOf s.data

/-- Models `s.endsWith(suf)`. -/
def endsWithStr (s suf : String) : Bool := suf.data.isSuffixOf s.data

/-- Models `s.includes(sub)`. -/
def containsStr (s sub : String) : Bool := decide (sub.data <:+: s.data)

/-- Models `s.slice(n)` for a character offset `n` (ASCII data). -/
def dropStr (n : Nat) (s : String) : String := ⟨s.data.drop n⟩

/-- Falsiness of a JS string: the empty-string test, at the data level. -/
def strIsEmpty (s : String) : Bool := s.data.isEmpty

/-- Models `Array.prototype.join(sep)`. -/
def joinWith (sep : String) (l : List String) : String :=
  ⟨List.intercalate sep.data (l.map String.data)⟩

/-! ## URL model

`parseURL` models `new URL(input)` (no base) for the inputs this route feeds
it: it extracts the scheme, and for the special schemes `http`, `https`, `ws`,
`wss` and `ftp` it strips the slashes, splits off userinfo and port, validates
the port and the host, and returns the lowercased hostname together with the
pathname.  For any other scheme the URL is treated as opaque-path
(hostname `""`, path up to `?`/`#`), and a string with no scheme fails, as the
constructor throws.  Left out of scope (never produced by the route's inputs):
`file:` URLs, path `.`/`..` normalization, percent-decoding and punycode. -/

/-- Characters allowed in a scheme after the initial letter. -/
def isSchemeChar (c : Char) : Bool :=
  isAsciiLetter c || c.isDigit || c = '+' || c = '-' || c = '.'

/-- Splits `scheme ":" rest`; `none` when the string does not begin with a
valid scheme followed by a colon.  The scheme is returned lowercased. -/
def splitScheme (s : List Char) : Option (List Char × List Char) :=
  match s with
  | [] => none
  | c :: _ =>
    if isAsciiLetter c then
      match s.dropWhile isSchemeChar with
      | ':' :: r => some ((s.takeWhile isSchemeChar).map Char.toLower, r)
      | _ => none
    else none

/-- The special schemes with an authority component that can reach this
model (`file` is excluded: see the module comment). -/
def specialSchemes : List (List Char) :=
  ["http".data, "https".data, "ws".data, "wss".data, "ftp".data]

/-- Characters that make a hostname invalid once authority has been split. -/
def isForbiddenHostChar (c : Char) : Bool :=
  c = ' ' || c = '\t' || c = '\n' || c = '\r' || c = '<' || c = '>' ||
  c = '[' || c = ']' || c = '^' || c = '|' || c = '"' || c = '{' || c = '}' ||
  c = '`' || c = '\x00'

/-- The part of the authority after the last `'@'` (userinfo stripped). -/
def afterLastAt (l : List Char) : List Char :=
  (l.reverse.takeWhile (fun c => c ≠ '@')).reverse

/-- Models `new URL(s)`, returning `(hostname, pathname)` on success. -/
def parseURL (s : String) : Option (String × String) :=
  match splitScheme s.data with
  | none => none
  | some (sch, rest) =>
    if specialSchemes.contains sch then
      let rest := rest.dropWhile (fun c => c = '/' || c = '\\')
      let authority := rest.takeWhile (fun c => !(c = '/' || c = '\\' || c = '?' || c = '#'))
      let after := rest.drop authority.length
      let hostport := afterLastAt authority
      let host := hostport.takeWhile (fun c => c ≠ ':')
      let portOk :=
        match hostport.dropWhile (fun c => c ≠ ':') with
        | [] => true
        | _ :: p => p.all Char.isDigit
      if host.isEmpty || host.any isForbiddenHostChar || !portOk then none
      else
        let path := (after.takeWhile (fun c => !(c = '?' || c = '#'))).map
          (fun c => if c = '\\' then '/' else c)
        some (⟨host.map Char.toLower⟩, if path.isEmpty then "/" else ⟨path⟩)
    else
      some ("", ⟨rest.takeWhile (fun c => !(c = '?' || c = '#'))⟩)

/-! ## Domain resolver -/

/-- `FREE_PROVIDERS` from the source. -/
def FREE_PROVIDERS : List String :=
  ["gmail.com", "yahoo.com", "outlook.com", "hotmail.com", "icloud.com",
   "aol.com", "protonmail.com", "zoho.com", "yandex.com", "gmx.com", "mail.com"]

/-- `deriveDomain` from the source: trim, prepend `https://` when the value
does not start with the literal `"http"`, parse as a URL (`none` on failure),
lowercase the hostname and strip one leading `www.` label. -/
def deriveDomain (input : String) : Option String :=
  let value := trimStr input
  if strIsEmpty value then none
  else
    let value := if startsWithStr value "http" then value else "https://" ++ value
    match parseURL value with
    | none => none
    | some (hostname, _) =>
      let host := lowerStr hostname
      if startsWithStr host "www." then some (dropStr 4 host) else some host

/-! ## Patterns, confidence tiers and fixed tables -/

/-- The five local-part conventions; the string keys of the source
(`"first.last"`, `"firstlast"`, `"firstinitial.last"`, `"first.lastinitial"`,
`"first"`) become constructors. -/
inductive Pattern where
  | firstDotLast
  | firstlast
  | firstInitialDotLast
  | firstDotLastInitial
  | first
deriving DecidableEq, Repr

/-- The three confidence tiers. -/
inductive Confidence where
  | high
  | medium
  | low
deriving DecidableEq, Repr

/-- `PATTERN_PRIORITY` from the source.  The source reads it as
`PATTERN_PRIORITY[pattern] || 1`; every one of the five keys is present, so
the `|| 1` default is unreachable and the table is total. -/
def PATTERN_PRIORITY : Pattern → Nat
  | .firstDotLast => 5
  | .firstlast => 4
  | .firstInitialDotLast => 3
  | .firstDotLastInitial => 3
  | .first => 2

/-- `ROLE_PRIORITY` from the source, read as `ROLE_PRIORITY[label] || 0`. -/
def rolePriority (label : String) : Nat :=
  if label = "Founder" then 5
  else if label = "CEO" then 4
  else if label = "Executive" then 3
  else if label = "Operations Head" then 2
  else if label = "Finance Head" then 2
  else 0

/-- `ROLE_KEYWORDS` from the source: keyword groups with their labels. -/
def ROLE_KEYWORDS : List (List String × String) :=
  [(["founder", "cofounder", "co-founder"], "Founder"),
   (["ceo", "chiefexecutiveofficer"], "CEO"),
   (["c-suite", "executive"], "Executive"),
   (["cfo", "chieffinancialofficer", "financehead", "finance"], "Finance Head"),
   (["operations", "ops", "headoperations", "operationshead"], "Operations Head")]

/-! ## Pattern classification (`inferPattern`) -/

/-- The test of `/^[a-z]+\.{1}[a-z]+$/`: a nonempty lowercase run, one dot,
a nonempty lowercase run. -/
def testWordDotWord (l : List Char) : Bool :=
  let w1 := l.takeWhile isAsciiLower
  match l.dropWhile isAsciiLower with
  | '.' :: w2 => !w1.isEmpty && !w2.isEmpty && w2.all isAsciiLower
  | _ => false

/-- The test of `/^[a-z]\.[a-z]+$/`: one lowercase letter, a dot, a nonempty
lowercase run. -/
def testInitialDotWord (l : List Char) : Bool :=
  match l with
  | a :: '.' :: w2 => isAsciiLower a && !w2.isEmpty && w2.all isAsciiLower
  | _ => false

/-- The test of `/^[a-z]+\.{1}[a-z]$/`: a nonempty lowercase run, a dot, one
lowercase letter. -/
def testWordDotInitial (l : List Char) : Bool :=
  let w1 := l.takeWhile isAsciiLower
  match l.dropWhile isAsciiLower with
  | ['.', b] => !w1.isEmpty && isAsciiLower b
  | _ => false

/-- The test of `/^[a-z]+[a-z]+$/`: at least two characters, all lowercase
letters. -/
def testTwoLowerRuns (l : List Char) : Bool :=
  l.length ≥ 2 && l.all isAsciiLower

/-- The test of `/^[a-z]+$/`. -/
def testLowerRun (l : List Char) : Bool :=
  !l.isEmpty && l.all isAsciiLower

/-- `inferPattern` from the source.  `sanitized` is
`localPart.replace(/[^a-z]/gi, "")` (both letter cases survive the strip);
the empty-input check of the source precedes the regex chain. -/
def inferPattern (localPart : List Char) : Option Pattern :=
  let sanitized := localPart.filter isAsciiLetter
  if localPart.isEmpty then none
  else if testWordDotWord localPart then some .firstDotLast
  else if testTwoLowerRuns localPart && sanitized.length ≥ 4 then some .firstlast
  else if testInitialDotWord localPart then some .firstInitialDotLast
  else if testWordDotInitial localPart then some .firstDotLastInitial
  else if testLowerRun localPart then some .first
  else none

/-! ## Pattern scoring (`selectPattern`) -/

/-- `email.split("@")[0]`: the characters before the first `'@'`. -/
def localOf (email : String) : List Char := email.data.takeWhile (fun c => c ≠ '@')

/-- One `patternScores.set(p, (patternScores.get(p) || 0) + w)` step on the
insertion-ordered entry list of the JS `Map`: an existing key keeps its
position, a new key is appended. -/
def bumpScore (m : List (Pattern × Nat)) (p : Pattern) (w : Nat) : List (Pattern × Nat) :=
  match m with
  | [] => [(p, w)]
  | (q, s) :: t => if q = p then (q, s + w) :: t else (q, s) :: bumpScore t p w

/-- The score accumulation loop of `selectPattern`. -/
def buildScores (emails : List String) : List (Pattern × Nat) :=
  emails.foldl
    (fun m e =>
      match inferPattern (localOf e) with
      | none => m
      | some p => bumpScore m p (PATTERN_PRIORITY p))
    []

/-- One comparison of the selection loop of `selectPattern`: the running
best starts at `bestPattern = null`, `bestScore = -Infinity` (modelled as
`none`, which any entry beats), and an entry replaces the best only when its
score is strictly greater. -/
def scanStep (acc : Option (Pattern × Nat)) (kv : Pattern × Nat) : Option (Pattern × Nat) :=
  match acc with
  | none => some kv
  | some best => if kv.2 > best.2 then some kv else acc

/-- The selection loop of `selectPattern`. -/
def scanBest (m : List (Pattern × Nat)) : Option Pattern :=
  (m.foldl scanStep none).map Prod.fst

/-- `selectPattern` from the source. -/
def selectPattern (emails : List String) : Option Pattern :=
  scanBest (buildScores emails)

/-! ## The email regex (`EMAIL_REGEX`)

`/[A-Z0-9._%+-]+@[A-Z0-9.-]+\.[A-Z]{2,}/gi` applied with
`String.prototype.match`: scan left to right, at each position attempt a
match, on success emit the matched substring and continue after it, otherwise
advance one character.  A match attempt at a position takes the maximal run of
local-part characters (backtracking cannot shorten it, since the following
`'@'` is not a local-part character), requires `'@'`, takes the maximal run of
host characters, and backtracks to the rightmost dot inside that run that is
followed by at least two letters; the trailing `[A-Z]{2,}` is greedy. -/

/-- The `[A-Z0-9._%+-]/i` class. -/
def isLocalChar (c : Char) : Bool :=
  isAsciiLetter c || c.isDigit || c = '.' || c = '_' || c = '%' || c = '+' || c = '-'

/-- The `[A-Z0-9.-]/i` class. -/
def isHostChar (c : Char) : Bool :=
  isAsciiLetter c || c.isDigit || c = '.' || c = '-'

/-- The rightmost index `r ≥ 1` in `hostRun` holding `'.'` followed by at
least two letters; this is where the backtracking of `[A-Z0-9.-]+\.[A-Z]{2,}`
ends up. -/
def findTldDot (hostRun : List Char) : Option Nat :=
  (List.range hostRun.length).reverse.find? fun r =>
    decide (1 ≤ r) && hostRun.getD r ' ' = '.' &&
      ((hostRun.drop (r + 1)).takeWhile isAsciiLetter).length ≥ 2

/-- A match attempt of `EMAIL_REGEX` at the head of `l`: on success returns
the matched characters and the remaining input. -/
def matchEmailAt (l : List Char) : Option (List Char × List Char) :=
  let localPart := l.takeWhile isLocalChar
  if localPart.isEmpty then none
  else
    match l.drop localPart.length with
    | '@' :: afterAt =>
      let hostRun := afterAt.takeWhile isHostChar
      match findTldDot hostRun with
      | none => none
      | some r =>
        let tld := (hostRun.drop (r + 1)).takeWhile isAsciiLetter
        some (localPart ++ '@' :: (hostRun.take r ++ '.' :: tld),
              l.drop (localPart.length + 1 + r + 1 + tld.length))
    | _ => none

/-- The scan loop of `String.prototype.match` with a global regex.  Each step
consumes at least one character, so the input length is enough fuel. -/
def emailMatchesAux : Nat → List Char → List (List Char)
  | 0, _ => []
  | _ + 1, [] => []
  | fuel + 1, c :: rest =>
    match matchEmailAt (c :: rest) with
    | some (m, after) => m :: emailMatchesAux fuel after
    | none => emailMatchesAux fuel rest

/-- `html.match(EMAIL_REGEX) || []` from the source. -/
def emailMatches (s : List Char) : List (List Char) :=
  emailMatchesAux s.length s

/-! ## Pattern discovery (`discoverPattern`) -/

/-- `guessPatternFromDomain` from the source: the first hint group with a
keyword contained in the domain string. -/
def guessPatternFromDomain (domain : String) : Option Pattern :=
  if containsStr domain "io" || containsStr domain "tech" ||
      containsStr domain "systems" || containsStr domain "labs" then
    some .firstDotLast
  else if containsStr domain "finance" || containsStr domain "bank" ||
      containsStr domain "capital" then
    some .firstInitialDotLast
  else if containsStr domain "media" || containsStr domain "creative" ||
      containsStr domain "studio" then
    some .firstlast
  else none

/-- Insertion-ordered deduplication, the behaviour of `new Set([...])` turned
back into an array. -/
def dedupStrAux (seen : List String) : List String → List String
  | [] => []
  | s :: t =>
    if seen.contains s then dedupStrAux seen t
    else s :: dedupStrAux (s :: seen) t

/-- `buildDiscoveryUrls` from the source. -/
def buildDiscoveryUrls (domain : String) : List String :=
  let base := "https://" ++ domain
  let withoutWww := if startsWithStr domain "www." then dropStr 4 domain else domain
  let withWww := if withoutWww = domain then "www." ++ domain else domain
  dedupStrAux []
    ["https://" ++ withoutWww, "https://" ++ withWww,
     "http://" ++ withoutWww, "http://" ++ withWww,
     base ++ "/contact", base ++ "/team", base ++ "/about"]

/-- The per-page filter of `discoverPattern`: every regex match, lowercased,
kept when it ends with `"@" ++ domain`. -/
def businessEmails (domain html : String) : List String :=
  ((emailMatches html.data).map (fun m => (⟨m.map Char.toLower⟩ : String))).filter
    (fun e => endsWithStr e ("@" ++ domain))

/-- The body of one iteration of the `discoverPattern` loop: `none` both for
a failed or falsy fetch (`if (!html) continue`), for a page with no on-domain
addresses, and for a page whose addresses are all unclassifiable. -/
def discoverStep (fetch : String → Option String) (domain url : String) : Option Pattern :=
  match fetch url with
  | none => none
  | some html =>
    if strIsEmpty html then none
    else
      let be := businessEmails domain html
      if be.isEmpty then none else selectPattern be

/-- The candidate loop of `discoverPattern`: the first URL whose step yields
a pattern wins. -/
def discoverLoop (fetch : String → Option String) (domain : String) :
    List String → Option (Pattern × String)
  | [] => none
  | url :: rest =>
    match discoverStep fetch domain url with
    | some p => some (p, url)
    | none => discoverLoop fetch domain rest

/-- The discovery result record. -/
structure DiscoveryResult where
  pattern : Option Pattern
  confidence : Confidence
  source : String
deriving DecidableEq, Repr

/-- `discoverPattern` from the source, with the page fetcher as an oracle. -/
def discoverPattern (fetch : String → Option String) (domain : String) : DiscoveryResult :=
  match discoverLoop fetch domain (buildDiscoveryUrls domain) with
  | some (p, url) => ⟨some p, .high, url⟩
  | none =>
    match guessPatternFromDomain domain with
    | some p => ⟨some p, .medium, "https://" ++ domain⟩
    | none => ⟨none, .low, "https://" ++ domain⟩

/-! ## Identifier parser (`extractContactFromLinkedIn`) -/

/-- The person record produced by the parser. -/
structure Person where
  firstName : String
  lastName : Option String
  fullName : String
  role : String
  company : String
  source : String
deriving DecidableEq, Repr

/-- The slug of a profile reference: the last non-empty path segment when the
reference parses as a URL, otherwise the last non-empty `/`-delimited segment
of the reference itself, falling back to the whole trimmed string
(`... .filter(Boolean).pop() || trimmed`). -/
def slugOf (trimmed : String) : List Char :=
  match parseURL trimmed with
  | some (_, path) =>
    ((path.data.splitOnP (fun c => c = '/')).filter (fun seg => !seg.isEmpty)).getLastD
      trimmed.data
  | none =>
    ((trimmed.data.splitOnP (fun c => c = '/')).filter (fun seg => !seg.isEmpty)).getLastD
      trimmed.data

/-- The separator class of `split(/[-_\s]+/)`. -/
def isSepChar (c : Char) : Bool := c = '-' || c = '_' || isWsChar c

/-- The kept class of `replace(/[^a-z0-9-_\s]/g, " ")` (after lowercasing). -/
def isSlugKeep (c : Char) : Bool :=
  isAsciiLower c || c.isDigit || c = '-' || c = '_' || isWsChar c

/-- The token pipeline of the source: lowercase, replace every character
outside `[a-z0-9-_\s]` with a space, split on runs of `-`, `_` or whitespace,
drop empty tokens. -/
def tokensOf (slug : List Char) : List (List Char) :=
  let cleaned := (slug.map Char.toLower).map (fun c => if isSlugKeep c then c else ' ')
  (cleaned.splitOnP isSepChar).filter (fun t => !t.isEmpty)

/-- `token.replace(/[^a-z]/g, "")` (tokens are already lowercase). -/
def stripNonLower (t : List Char) : List Char := t.filter isAsciiLower

/-- The `/^\d+$/` test. -/
def isAllDigits (t : List Char) : Bool := !t.isEmpty && t.all Char.isDigit

/-- The token classification loop: role labels collected into an
insertion-ordered set, all other non-numeric tokens kept as name tokens. -/
def rolesAndNames (tokens : List (List Char)) : List String × List (List Char) :=
  tokens.foldl
    (fun acc token =>
      match ROLE_KEYWORDS.find? (fun item => item.1.contains (⟨stripNonLower token⟩ : String)) with
      | some item =>
        if acc.1.contains item.2 then acc else (acc.1 ++ [item.2], acc.2)
      | none =>
        if isAllDigits token then acc else (acc.1, acc.2 ++ [token]))
    ([], [])

/-- `capitalize` from the source. -/
def capitalize (t : List Char) : String :=
  match t with
  | [] => ""
  | c :: rest => ⟨c.toUpper :: rest⟩

/-- `splitNameTokens` from the source: strip non-letters from each token,
drop empties; the first survivor is the first name, the last survivor is the
last name when more than one survives. -/
def splitNameTokens (tokens : List (List Char)) : Option String × Option String :=
  let cleaned := (tokens.map stripNonLower).filter (fun t => !t.isEmpty)
  match cleaned with
  | [] => (none, none)
  | c :: rest =>
    (some (capitalize c),
     if rest.isEmpty then none else some (capitalize (cleaned.getLastD [])))

/-- The stable descending sort of
`Array.from(matchedRoles).sort((a, b) => ROLE_PRIORITY[b] - ROLE_PRIORITY[a])`:
JS `sort` is stable, and stable sorting under this comparator is the unique
priority-descending reordering that keeps equal-priority labels in their
original relative order, here realised by insertion sort. -/
def sortRolesDesc (roles : List String) : List String :=
  List.insertionSort (fun a b => rolePriority b ≤ rolePriority a) roles

/-- The role string: matched labels joined with `" & "` after the stable
descending sort, or the literal fallback. -/
def roleStringOf (roles : List String) : String :=
  if roles.isEmpty then "Decision Maker"
  else joinWith " & " (sortRolesDesc roles)

/-- `extractContactFromLinkedIn` from the source.  The `typeof url` guard is
vacuous in the model (references are strings); `!url` is the empty check. -/
def extractContactFromLinkedIn (url company : String) : List Person :=
  if strIsEmpty url then []
  else
    let trimmed := trimStr url
    if strIsEmpty trimmed then []
    else
      let tokens := tokensOf (slugOf trimmed)
      let rn := rolesAndNames tokens
      if rn.2.isEmpty then []
      else
        match splitNameTokens rn.2 with
        | (none, _) => []
        | (some firstName, lastName) =>
          [{ firstName, lastName,
             fullName := joinWith " " ([some firstName, lastName].filterMap id),
             role := roleStringOf rn.1,
             company, source := trimmed }]

/-! ## Email synthesizer (`buildEmail`) -/

/-- `sanitizePart` from the source: NFD-normalize, strip combining marks,
strip every remaining non-ASCII-letter, lowercase.  On the ASCII strings in
scope NFD is the identity, so the composition is modelled as the letter
filter followed by lowercasing; `!value` maps `null`/`""` to `""`. -/
def sanitizePart (value : Option String) : String :=
  match value with
  | none => ""
  | some s => ⟨(s.data.filter isAsciiLetter).map Char.toLower⟩

/-- `applyPattern` from the source; the two-part templates return `null` for
an empty last name. -/
def applyPattern (pattern : Pattern) (first last : String) : Option String :=
  match pattern with
  | .firstDotLast => if strIsEmpty last then none else some (first ++ "." ++ last)
  | .firstlast => if strIsEmpty last then none else some (first ++ last)
  | .firstInitialDotLast =>
    if strIsEmpty last then none else some ((⟨first.data.take 1⟩ : String) ++ "." ++ last)
  | .firstDotLastInitial =>
    if strIsEmpty last then none else some (first ++ "." ++ (⟨last.data.take 1⟩ : String))
  | .first => some first

/-- `buildEmail` from the source. -/
def buildEmail (contact : Person) (domain : String) (pattern : Pattern) : Option String :=
  let first := sanitizePart (some contact.firstName)
  let last := sanitizePart contact.lastName
  if strIsEmpty first then none
  else
    match applyPattern pattern first last with
    | none => none
    | some localPart =>
      if strIsEmpty localPart then none else some (localPart ++ "@" ++ domain)

/-! ## Confidence and fallback (`chooseFallbackPattern`, `adjustConfidence`) -/

/-- The `!contact.lastName` test: no last name, or an empty one. -/
def lastNameFalsy (contact : Person) : Bool :=
  match contact.lastName with
  | none => true
  | some s => strIsEmpty s

/-- `chooseFallbackPattern` from the source; `FALLBACK_PATTERNS[0]` is
`"first.last"`. -/
def chooseFallbackPattern (contact : Person) : Pattern :=
  if lastNameFalsy contact then .first else .firstDotLast

/-- `downgrade` from the source. -/
def downgrade : Confidence → Confidence
  | .high => .medium
  | .medium => .low
  | .low => .low

/-- `adjustConfidence` from the source.  `base || "low"` never takes the
default: discovery always supplies one of the three tiers, which the model
makes total. -/
def adjustConfidence (base : Confidence) (pattern : Pattern) (contact : Person) : Confidence :=
  if lastNameFalsy contact || pattern = .first then downgrade base else base

/-! ## Batch processing (`POST`) and deduplication -/

/-- One emitted row of the response. -/
structure ContactResult where
  name : String
  role : String
  company : String
  email : String
  confidence : Confidence
  source : String
deriving DecidableEq, Repr

/-- The dedup signature of the source:
`` `${item.company.toLowerCase()}-${item.email.toLowerCase()}` ``. -/
def sigOf (r : ContactResult) : String :=
  lowerStr r.company ++ "-" ++ lowerStr r.email

/-- The `seen`-set filter of `deduplicateResults`. -/
def dedupAux (seen : List String) : List ContactResult → List ContactResult
  | [] => []
  | r :: t =>
    if seen.contains (sigOf r) then dedupAux seen t
    else r :: dedupAux (sigOf r :: seen) t

/-- `deduplicateResults` from the source. -/
def deduplicateResults (results : List ContactResult) : List ContactResult :=
  dedupAux [] results

/-- One request entry.  `linkedinProfiles = none` models a field that is
absent or not an array; a `none` element models a falsy array element. -/
structure Entry where
  company : String
  website : String
  linkedinProfiles : Option (List (Option String))

/-- `Array.isArray(entry?.linkedinProfiles) ? entry.linkedinProfiles.filter(Boolean) : []`:
a missing or non-array field becomes `[]`, falsy elements (including the
empty string) are dropped. -/
def profilesOf (entry : Entry) : List String :=
  match entry.linkedinProfiles with
  | none => []
  | some l =>
    l.filterMap fun item =>
      match item with
      | none => none
      | some s => if strIsEmpty s then none else some s

/-- `patternDiscovery.pattern || chooseFallbackPattern(contact)`; the
subsequent `if (!emailPattern) continue` is dead, since the fallback is never
falsy. -/
def appliedPattern (disc : DiscoveryResult) (contact : Person) : Pattern :=
  match disc.pattern with
  | some p => p
  | none => chooseFallbackPattern contact

/-- `[contact.source, patternDiscovery.source].filter(Boolean).join(" | ")`. -/
def joinSources (a b : String) : String :=
  joinWith " | " (([a, b]).filter (fun s => !strIsEmpty s))

/-- `company || contact.company || "Unknown company"`. -/
def companyFallback (company contactCompany : String) : String :=
  if !strIsEmpty company then company
  else if !strIsEmpty contactCompany then contactCompany
  else "Unknown company"

/-- The per-entry body of the `POST` loop: resolve the domain, drop the entry
when it is unresolvable or a free provider, discover a pattern, parse every
profile reference, and emit one row per contact whose email synthesizes. -/
def processEntry (fetch : String → Option String) (entry : Entry) : List ContactResult :=
  let company := trimStr entry.company
  let website := trimStr entry.website
  match deriveDomain website with
  | none => []
  | some domain =>
    if FREE_PROVIDERS.contains (lowerStr domain) then []
    else
      let disc := discoverPattern fetch domain
      let contacts := (profilesOf entry).flatMap
        (fun profile => extractContactFromLinkedIn profile company)
      contacts.filterMap fun contact =>
        let pat := appliedPattern disc contact
        match buildEmail contact domain pat with
        | none => none
        | some email =>
          some { name := contact.fullName, role := contact.role,
                 company := companyFallback company contact.company,
                 email, confidence := adjustConfidence disc.confidence pat contact,
                 source := joinSources contact.source disc.source }

/-- The whole `POST` success path: every entry processed in order, then one
deduplication pass over the accumulated rows.  The HTTP framing (the 400 for
an empty or non-array `entries`, the 500 catch-all) is outside the model. -/
def processBatch (fetch : String → Option String) (entries : List Entry) : List ContactResult :=
  deduplicateResults (entries.flatMap (processEntry fetch))

/-! ## Claim-side definitions

These definitions are written from the words of the specification's claims
and are compared against the source-side definitions above. -/

/-- The claim's "starts with a URL scheme": an initial letter, any run of
scheme characters, then a colon. -/
def startsWithURLScheme (s : String) : Bool :=
  match s.data with
  | [] => false
  | c :: _ =>
    if isAsciiLetter c then
      match s.data.dropWhile isSchemeChar with
      | ':' :: _ => true
      | _ => false
    else false

/-- Claim C1 as stated: trim; prepend `https://` exactly when the trimmed
string does not already start with a URL scheme; parse as a URL, `none` on
failure; otherwise the lowercased hostname with one leading `www.` label
stripped. -/
def specDeriveDomainClaim (input : String) : Option String :=
  let value := trimStr input
  let value := if startsWithURLScheme value then value else "https://" ++ value
  match parseURL value with
  | none => none
  | some (hostname, _) =>
    let host := lowerStr hostname
    if startsWithStr host "www." then some (dropStr 4 host) else some host

/-- Claim C1 amended: the prepend condition is the literal prefix `"http"`,
not a URL scheme. -/
def specDeriveDomainAmended (input : String) : Option String :=
  let value := trimStr input
  let value := if startsWithStr value "http" then value else "https://" ++ value
  match parseURL value with
  | none => none
  | some (hostname, _) =>
    let host := lowerStr hostname
    if startsWithStr host "www." then some (dropStr 4 host) else some host

/-- Claim C2's duplicate test: same company and same email address, both
compared case-insensitively. -/
def samePair (r1 r2 : ContactResult) : Bool :=
  lowerStr r1.company = lowerStr r2.company && lowerStr r1.email = lowerStr r2.email

/-- Claim C2's dedup: walk the batch in order, keeping a result exactly when
no earlier result of the batch has the same (company, email) pair
case-insensitively. -/
def specDedupAux (prev : List ContactResult) : List ContactResult → List ContactResult
  | [] => []
  | r :: t =>
    if prev.any (fun x => samePair x r) then specDedupAux (prev ++ [r]) t
    else r :: specDedupAux (prev ++ [r]) t

/-- Claim C2's dedup over the whole batch. -/
def specDedup (results : List ContactResult) : List ContactResult :=
  specDedupAux [] results

/-- The shape of an email the pipeline can emit, as needed by claim C2: after
lowercasing it splits as `local ++ "@" ++ domain` where the local part
contains neither `'@'` nor `'-'` and the domain contains no `'@'`.  Every
`buildEmail` output has this shape (the local part is built from sanitized
letters and dots, the domain from a parsed hostname). -/
def EmittedShape (r : ContactResult) : Prop :=
  ∃ l d : List Char,
    (lowerStr r.email).data = l ++ '@' :: d ∧
    '@' ∉ l ∧ '-' ∉ l ∧ '@' ∉ d

/-- Claim C3's five precedence rules, first match wins: word.word, an
all-letter run of length at least 4, single-letter.word, word.single-letter,
any remaining all-letter run; everything else is unclassifiable. -/
def claimClassify (localPart : List Char) : Option Pattern :=
  if testWordDotWord localPart then some .firstDotLast
  else if testLowerRun localPart && localPart.length ≥ 4 then some .firstlast
  else if testInitialDotWord localPart then some .firstInitialDotLast
  else if testWordDotInitial localPart then some .firstDotLastInitial
  else if testLowerRun localPart then some .first
  else none

/-- The classifiable patterns of a batch of addresses, in encounter order. -/
def classifiedOf (emails : List String) : List Pattern :=
  emails.filterMap (fun e => inferPattern (localOf e))

/-- Claim C4's total score of a pattern: the fixed weight added once per
matching address. -/
def totalScore (emails : List String) (p : Pattern) : Nat :=
  PATTERN_PRIORITY p * (classifiedOf emails).count p

/-- First-occurrence deduplication of a pattern list. -/
def dedupFirstAux (seen : List Pattern) : List Pattern → List Pattern
  | [] => []
  | p :: t =>
    if seen.contains p then dedupFirstAux seen t
    else p :: dedupFirstAux (p :: seen) t

/-- Claim C4's selection: among the patterns in first-encounter order, the
first one whose total score is maximal. -/
def specSelect (emails : List String) : Option Pattern :=
  (dedupFirstAux [] (classifiedOf emails)).find? fun p =>
    (dedupFirstAux [] (classifiedOf emails)).all fun q =>
      totalScore emails q ≤ totalScore emails p

/-! ## Helper lemmas -/

theorem strIsEmpty_empty : strIsEmpty "" = true := rfl

theorem strIsEmpty_eq_true_iff (s : String) : strIsEmpty s = true ↔ s = "" := by
  constructor
  · intro h
    exact String.ext (by simpa [strIsEmpty, List.isEmpty_iff] using h)
  · intro h
    subst h
    rfl

theorem strIsEmpty_eq_false_iff (s : String) : strIsEmpty s = false ↔ ¬s = "" := by
  cases h : strIsEmpty s
  · simp only [true_iff]
    intro he
    rw [← strIsEmpty_eq_true_iff] at he
    rw [h] at he
    exact Bool.false_ne_true he
  · simp only [Bool.true_eq_false, false_iff, not_not]
    exact (strIsEmpty_eq_true_iff s).mp h

theorem isEmpty_append_cons (a : List Char) (x : Char) (b : List Char) :
    (a ++ x :: b).isEmpty = false := by
  cases a <;> rfl

theorem isEmpty_append_of_left (a b : List Char) (h : a.isEmpty = false) :
    (a ++ b).isEmpty = false := by
  cases a with
  | nil => exact absurd h (by decide)
  | cons c t => rfl

theorem processEntry_free_eq_nil (fetch : String → Option String) (e : Entry) (d : String)
    (hd : deriveDomain (trimStr e.website) = some d)
    (hfree : FREE_PROVIDERS.contains (lowerStr d) = true) :
    processEntry fetch e = [] := by
  simp only [processEntry]
  rw [hd]
  simp only [hfree, if_true]

theorem discoverLoop_eq_none (fetch : String → Option String) (d : String) :
    ∀ urls : List String, (∀ u ∈ urls, discoverStep fetch d u = none) →
      discoverLoop fetch d urls = none := by
  intro urls h
  induction urls with
  | nil => rfl
  | cons u rest ih =>
    unfold discoverLoop
    rw [h u (List.mem_cons_self u rest)]
    exact ih fun v hv => h v (List.mem_cons_of_mem u hv)

/-! ## Claim C1 -/

/-- Claim C1 as stated is false on the code: `deriveDomain` checks for the
literal prefix `"http"`, not for a URL scheme.  `"http.example.com"` does not
start with a URL scheme (it has no colon), so the claim prepends `https://`
and yields `"http.example.com"`, while the code skips the prepend (the string
starts with `"http"`), fails to parse, and returns `none`. -/
theorem claim_C1_counterexample :
    deriveDomain "http.example.com" = none ∧
    specDeriveDomainClaim "http.example.com" = some "http.example.com" ∧
    deriveDomain "http.example.com" ≠ specDeriveDomainClaim "http.example.com" := by
  refine ⟨by decide, by decide, by decide⟩

/-- Claim C1, amended: for every input website string, `deriveDomain` trims
it, prepends `https://` exactly when the trimmed string does not already
start with the literal `"http"`, parses the result as a URL, returns `none`
on parse failure, and otherwise returns the lowercased hostname with one
leading `www.` label stripped; the three concrete examples all return
`"acme.io"`. -/
theorem claim_C1 :
    (∀ s : String, deriveDomain s = specDeriveDomainAmended s) ∧
    deriveDomain "acme.io" = some "acme.io" ∧
    deriveDomain "https://www.acme.io/x" = some "acme.io" ∧
    deriveDomain "http://acme.io" = some "acme.io" := by
  refine ⟨fun s => ?_, by decide, by decide, by decide⟩
  unfold deriveDomain specDeriveDomainAmended
  by_cases h : strIsEmpty (trimStr s) = true
  · rw [strIsEmpty_eq_true_iff] at h
    rw [h]
    decide
  · simp only [Bool.not_eq_true] at h
    simp only [h, Bool.false_eq_true, if_false]

/-! ## Claim C7 -/

/-- Claim C7: email synthesis produces an address exactly when the sanitized
first name is non-empty and, for the four two-part patterns, the sanitized
last name is non-empty; the produced address is the pattern's local part
followed by `@domain`; Jordan/Lee/acme.io give `jordan.lee@acme.io` under
`first.last` and `j.lee@acme.io` under `firstinitial.last`; a person with no
last name yields no email under any two-part pattern. -/
theorem claim_C7 :
    (∀ (c : Person) (d : String) (p : Pattern),
        buildEmail c d p = none ↔
          sanitizePart (some c.firstName) = "" ∨
            (p ≠ Pattern.first ∧ sanitizePart c.lastName = "")) ∧
    (∀ (c : Person) (d : String) (p : Pattern),
        buildEmail c d p = none ∨
          buildEmail c d p =
            some ((applyPattern p (sanitizePart (some c.firstName))
                (sanitizePart c.lastName)).getD "" ++ "@" ++ d)) ∧
    buildEmail ⟨"Jordan", some "Lee", "Jordan Lee", "", "", ""⟩ "acme.io"
        Pattern.firstDotLast = some "jordan.lee@acme.io" ∧
    buildEmail ⟨"Jordan", some "Lee", "Jordan Lee", "", "", ""⟩ "acme.io"
        Pattern.firstInitialDotLast = some "j.lee@acme.io" ∧
    (∀ p : Pattern, p ≠ Pattern.first →
        buildEmail ⟨"Jordan", none, "Jordan", "", "", ""⟩ "acme.io" p = none) := by
  refine ⟨fun c d p => ?_, fun c d p => ?_, by decide, by decide, fun p hp => ?_⟩
  · unfold buildEmail
    cases hf : strIsEmpty (sanitizePart (some c.firstName)) with
    | true =>
      simp [(strIsEmpty_eq_true_iff _).mp hf, strIsEmpty_empty]
    | false =>
      have hf' : ¬sanitizePart (some c.firstName) = "" := (strIsEmpty_eq_false_iff _).mp hf
      simp only [hf, Bool.false_eq_true, if_false]
      cases p with
      | first =>
        simp only [applyPattern]
        simp [hf, hf']
      | firstDotLast =>
        simp only [applyPattern]
        cases hl : strIsEmpty (sanitizePart c.lastName) with
        | true => simp [(strIsEmpty_eq_true_iff _).mp hl, strIsEmpty_empty]
        | false =>
          have hl' : ¬sanitizePart c.lastName = "" := (strIsEmpty_eq_false_iff _).mp hl
          have hmid : strIsEmpty
              (sanitizePart (some c.firstName) ++ "." ++ sanitizePart c.lastName) = false := by
            simp [strIsEmpty, String.data_append, show ("." : String).data = ['.'] from rfl,
              List.append_assoc, isEmpty_append_cons]
          simp [hl, hmid, hf', hl']
      | firstlast =>
        simp only [applyPattern]
        cases hl : strIsEmpty (sanitizePart c.lastName) with
        | true => simp [(strIsEmpty_eq_true_iff _).mp hl, strIsEmpty_empty]
        | false =>
          have hl' : ¬sanitizePart c.lastName = "" := (strIsEmpty_eq_false_iff _).mp hl
          have hmid : strIsEmpty
              (sanitizePart (some c.firstName) ++ sanitizePart c.lastName) = false := by
            simp only [strIsEmpty, String.data_append]
            exact isEmpty_append_of_left _ _ hf
          simp [hl, hmid, hf', hl']
      | firstInitialDotLast =>
        simp only [applyPattern]
        cases hl : strIsEmpty (sanitizePart c.lastName) with
        | true => simp [(strIsEmpty_eq_true_iff _).mp hl, strIsEmpty_empty]
        | false =>
          have hl' : ¬sanitizePart c.lastName = "" := (strIsEmpty_eq_false_iff _).mp hl
          have hmid : strIsEmpty
              ((⟨(sanitizePart (some c.firstName)).data.take 1⟩ : String) ++ "." ++
                sanitizePart c.lastName) = false := by
            simp [strIsEmpty, String.data_append, show ("." : String).data = ['.'] from rfl,
              List.append_assoc, isEmpty_append_cons]
          simp [hl, hmid, hf', hl']
      | firstDotLastInitial =>
        simp only [applyPattern]
        cases hl : strIsEmpty (sanitizePart c.lastName) with
        | true => simp [(strIsEmpty_eq_true_iff _).mp hl, strIsEmpty_empty]
        | false =>
          have hl' : ¬sanitizePart c.lastName = "" := (strIsEmpty_eq_false_iff _).mp hl
          have hmid : strIsEmpty
              (sanitizePart (some c.firstName) ++ "." ++
                (⟨(sanitizePart c.lastName).data.take 1⟩ : String)) = false := by
            simp [strIsEmpty, String.data_append, show ("." : String).data = ['.'] from rfl,
              List.append_assoc, isEmpty_append_cons]
          simp [hl, hmid, hf', hl']
  · unfold buildEmail
    cases hf : strIsEmpty (sanitizePart (some c.firstName)) with
    | true => simp [hf]
    | false =>
      simp only [hf, Bool.false_eq_true, if_false]
      cases hap : applyPattern p (sanitizePart (some c.firstName)) (sanitizePart c.lastName) with
      | none => left; rfl
      | some lp =>
        cases hlp : strIsEmpty lp with
        | true => left; simp [hlp]
        | false => right; simp [hlp]
  · cases p with
    | first => exact absurd rfl hp
    | firstDotLast => decide
    | firstlast => decide
    | firstInitialDotLast => decide
    | firstDotLastInitial => decide

/-! ## Claim C8 -/

/-- Claim C8: after discovery returned no pattern, the applied pattern is
`first` for a contact with no last name and `first.last` otherwise; the
reported confidence is the discovery tier downgraded one step
(high→medium, medium→low, low stays low) exactly when the contact lacks a
last name or the applied pattern is `first`, and the unchanged tier
otherwise. -/
theorem claim_C8 :
    (∀ (conf : Confidence) (src : String) (c : Person),
        appliedPattern ⟨none, conf, src⟩ c =
          if lastNameFalsy c then Pattern.first else Pattern.firstDotLast) ∧
    (∀ (b : Confidence) (p : Pattern) (c : Person),
        adjustConfidence b p c =
          if lastNameFalsy c || p = Pattern.first then
            match b with
            | .high => .medium
            | .medium => .low
            | .low => .low
          else b) := by
  constructor
  · intro conf src c
    rfl
  · intro b p c
    unfold adjustConfidence downgrade
    cases b <;> rfl

/-! ## Claim C9 -/

/-- Claim C9: an entry whose resolved hostname is (case-insensitively) one of
the fixed free-mail providers contributes zero results to the batch,
regardless of its profile references. -/
theorem claim_C9 :
    (∀ (fetch : String → Option String) (e : Entry) (d : String),
        deriveDomain (trimStr e.website) = some d →
        FREE_PROVIDERS.contains (lowerStr d) = true →
        processEntry fetch e = []) ∧
    (∀ (fetch : String → Option String) (pre post : List Entry) (e : Entry) (d : String),
        deriveDomain (trimStr e.website) = some d →
        FREE_PROVIDERS.contains (lowerStr d) = true →
        processBatch fetch (pre ++ e :: post) = processBatch fetch (pre ++ post)) := by
  refine ⟨fun fetch e d hd hfree => processEntry_free_eq_nil fetch e d hd hfree,
    fun fetch pre post e d hd hfree => ?_⟩
  unfold processBatch
  rw [List.flatMap_append, List.flatMap_append, List.flatMap_cons,
    processEntry_free_eq_nil fetch e d hd hfree]
  simp

/-- Witness for claim C9: the `gmail.com` entry resolves to a free provider
and contributes nothing, even with a profile reference attached. -/
theorem claim_C9_witness :
    deriveDomain (trimStr (Entry.mk "Acme" "gmail.com"
        (some [some "https://www.linkedin.com/in/jordan-lee-founder-ceo/"])).website) =
      some "gmail.com" ∧
    FREE_PROVIDERS.contains (lowerStr "gmail.com") = true ∧
    processEntry (fun _ => none)
      (Entry.mk "Acme" "gmail.com"
        (some [some "https://www.linkedin.com/in/jordan-lee-founder-ceo/"])) = [] :=
  ⟨by decide, by decide,
    claim_C9.1 (fun _ => none) _ "gmail.com" (by decide) (by decide)⟩

/-! ## Claim C10 -/

/-- Claim C10: an entry whose `linkedinProfiles` field is absent or not an
array is processed with an empty profile list and contributes zero results
without failing, and falsy elements inside a profiles array are skipped
rather than failing the entry. -/
theorem claim_C10 :
    (∀ (fetch : String → Option String) (e : Entry),
        e.linkedinProfiles = none → processEntry fetch e = []) ∧
    (∀ (fetch : String → Option String) (comp web : String)
        (pre post : List (Option String)),
        processEntry fetch ⟨comp, web, some (pre ++ none :: post)⟩ =
          processEntry fetch ⟨comp, web, some (pre ++ post)⟩) := by
  constructor
  · intro fetch e he
    simp only [processEntry]
    cases hd : deriveDomain (trimStr e.website) with
    | none => rfl
    | some d => simp [profilesOf, he]
  · intro fetch comp web pre post
    simp only [processEntry]
    have hp : profilesOf ⟨comp, web, some (pre ++ none :: post)⟩ =
        profilesOf ⟨comp, web, some (pre ++ post)⟩ := by
      simp [profilesOf, List.filterMap_append]
    rw [hp]

/-- Witness for claim C10: a `none` profiles field yields no results, and a
falsy element in the profiles array is skipped. -/
theorem claim_C10_witness :
    (Entry.mk "Acme" "acme.io" none).linkedinProfiles = none ∧
    processEntry (fun _ => none) (Entry.mk "Acme" "acme.io" none) = [] ∧
    processEntry (fun _ => none)
        ⟨"Acme", "acme.io",
          some ([] ++ none :: [some "https://www.linkedin.com/in/jordan-lee-founder-ceo/"])⟩ =
      processEntry (fun _ => none)
        ⟨"Acme", "acme.io",
          some ([] ++ [some "https://www.linkedin.com/in/jordan-lee-founder-ceo/"])⟩ :=
  ⟨rfl, claim_C10.1 (fun _ => none) (Entry.mk "Acme" "acme.io" none) rfl,
    claim_C10.2 (fun _ => none) "Acme" "acme.io" []
      [some "https://www.linkedin.com/in/jordan-lee-founder-ceo/"]⟩

/-! ## Claim C5 -/

/-- Claim C5: when no candidate URL yields a classifiable address, discovery
returns the first matching keyword hint (io/tech/systems/labs → first.last;
finance/bank/capital → firstinitial.last; media/creative/studio → firstlast)
with confidence medium and source `https://<domain>`, and pattern `null` with
confidence low and the same source when no keyword matches; `acmetech.io`
yields first.last/medium and `example-corp.com` yields null/low. -/
theorem claim_C5 :
    (∀ (fetch : String → Option String) (d : String),
        (∀ u ∈ buildDiscoveryUrls d, discoverStep fetch d u = none) →
        discoverPattern fetch d =
          if containsStr d "io" || containsStr d "tech" ||
              containsStr d "systems" || containsStr d "labs" then
            ⟨some Pattern.firstDotLast, Confidence.medium, "https://" ++ d⟩
          else if containsStr d "finance" || containsStr d "bank" ||
              containsStr d "capital" then
            ⟨some Pattern.firstInitialDotLast, Confidence.medium, "https://" ++ d⟩
          else if containsStr d "media" || containsStr d "creative" ||
              containsStr d "studio" then
            ⟨some Pattern.firstlast, Confidence.medium, "https://" ++ d⟩
          else
            ⟨none, Confidence.low, "https://" ++ d⟩) ∧
    discoverPattern (fun _ => none) "acmetech.io" =
      ⟨some Pattern.firstDotLast, Confidence.medium, "https://acmetech.io"⟩ ∧
    discoverPattern (fun _ => none) "example-corp.com" =
      ⟨none, Confidence.low, "https://example-corp.com"⟩ := by
  refine ⟨fun fetch d h => ?_, by decide, by decide⟩
  unfold discoverPattern
  rw [discoverLoop_eq_none fetch d (buildDiscoveryUrls d) h]
  unfold guessPatternFromDomain
  split_ifs <;> rfl

/-- Witness for claim C5: with a fetcher that always fails, every candidate
step yields no pattern and the keyword heuristic answers for
`acmetech.io`. -/
theorem claim_C5_witness :
    (∀ u ∈ buildDiscoveryUrls "acmetech.io",
        discoverStep (fun _ => none) "acmetech.io" u = none) ∧
    discoverPattern (fun _ => none) "acmetech.io" =
      ⟨some Pattern.firstDotLast, Confidence.medium, "https://acmetech.io"⟩ := by
  refine ⟨fun u _ => rfl, ?_⟩
  rw [claim_C5.1 (fun _ => none) "acmetech.io" (fun u _ => rfl)]
  decide

/-! ## Claim C3 -/

theorem filter_letter_of_all_lower {l : List Char} (h : l.all isAsciiLower = true) :
    l.filter isAsciiLetter = l := by
  rw [List.filter_eq_self]
  intro a ha
  have := List.all_eq_true.mp h a ha
  simp [isAsciiLetter, this]

theorem dropWhile_lower_of_all {l : List Char} (h : l.all isAsciiLower = true) :
    l.dropWhile isAsciiLower = [] := by
  induction l with
  | nil => rfl
  | cons c t ih =>
    simp only [List.all_cons, Bool.and_eq_true] at h
    simp [List.dropWhile_cons, h.1, ih h.2]

theorem testWordDotWord_of_all_lower {l : List Char} (h : l.all isAsciiLower = true) :
    testWordDotWord l = false := by
  unfold testWordDotWord
  rw [dropWhile_lower_of_all h]

theorem testWordDotInitial_of_all_lower {l : List Char} (h : l.all isAsciiLower = true) :
    testWordDotInitial l = false := by
  unfold testWordDotInitial
  rw [dropWhile_lower_of_all h]

theorem testInitialDotWord_of_all_lower {l : List Char} (hall : l.all isAsciiLower = true) :
    testInitialDotWord l = false := by
  cases htest : testInitialDotWord l with
  | false => rfl
  | true =>
    exfalso
    unfold testInitialDotWord at htest
    split at htest
    · simp only [List.all_cons, Bool.and_eq_true] at hall
      exact absurd hall.2.1 (by decide)
    · exact Bool.false_ne_true htest

/-- Claim C3: `inferPattern` applies the five precedence rules in order with
first match winning: word.word → first.last; an all-letter run of length at
least 4 → firstlast; single-letter.word → firstinitial.last;
word.single-letter → first.lastinitial; any remaining all-letter run (length
1 to 3) → first; everything else is discarded. -/
theorem claim_C3 : ∀ l : List Char, inferPattern l = claimClassify l := by
  intro l
  cases l with
  | nil => decide
  | cons c t =>
    by_cases hall : (c :: t).all isAsciiLower = true
    · have h1 := testWordDotWord_of_all_lower hall
      have h3 := testInitialDotWord_of_all_lower hall
      have h4 := testWordDotInitial_of_all_lower hall
      have hfil := filter_letter_of_all_lower hall
      unfold inferPattern claimClassify
      by_cases h4l : (4 : Nat) ≤ (c :: t).length
      · have h2l : (2 : Nat) ≤ (c :: t).length := le_trans (by norm_num) h4l
        simp [h1, h3, h4, hfil, testTwoLowerRuns, testLowerRun, hall, h4l, h2l]
        split_ifs <;> first | rfl | omega
      · simp [h1, h3, h4, hfil, testTwoLowerRuns, testLowerRun, hall, h4l]
        split_ifs <;> first | rfl | omega
    · have hlb : (c :: t).all isAsciiLower = false := by simpa using hall
      unfold inferPattern claimClassify
      simp [testTwoLowerRuns, testLowerRun, hlb]

/-! ## Claim C6 -/

theorem orderedInsert_filter_prio (x : String) (k : Nat) :
    ∀ l : List String,
      (l.orderedInsert (fun a b => rolePriority b ≤ rolePriority a) x).filter
          (fun a => rolePriority a == k) =
        if rolePriority x == k then
          x :: l.filter (fun a => rolePriority a == k)
        else l.filter (fun a => rolePriority a == k) := by
  intro l
  induction l with
  | nil => simp [List.filter_cons]
  | cons b t ih =>
    rw [List.orderedInsert]
    by_cases hr : rolePriority b ≤ rolePriority x
    · rw [if_pos hr]
      simp [List.filter_cons]
    · rw [if_neg hr]
      rw [List.filter_cons, List.filter_cons]
      by_cases hb : rolePriority b = k
      · have hx : ¬rolePriority x = k := by
          intro hxk
          exact hr (by omega)
        simp [hb, hx, ih]
      · simp [hb, ih]

theorem sortRolesDesc_filter_prio (roles : List String) (k : Nat) :
    (sortRolesDesc roles).filter (fun a => rolePriority a == k) =
      roles.filter (fun a => rolePriority a == k) := by
  induction roles with
  | nil => rfl
  | cons b t ih =>
    unfold sortRolesDesc at ih ⊢
    rw [List.insertionSort, orderedInsert_filter_prio, List.filter_cons]
    by_cases hb : rolePriority b = k
    · simp [hb, ih]
    · simp [hb, ih]

/-- Claim C6: the role of every produced person is the matched role labels
joined with `" & "` after a stable sort by descending fixed priority
(Founder=5, CEO=4, Executive=3, Operations Head=2, Finance Head=2, ties in
original relative order), with the literal `"Decision Maker"` when no keyword
matched; the `jordan-lee-founder-ceo` example yields exactly one person with
firstName `Jordan`, lastName `Lee`, fullName `Jordan Lee` and role
`Founder & CEO`. -/
theorem claim_C6 :
    (∀ (url company : String) (p : Person),
        p ∈ extractContactFromLinkedIn url company →
          p.role = roleStringOf (rolesAndNames (tokensOf (slugOf (trimStr url)))).1) ∧
    (∀ roles : List String,
        List.Perm (sortRolesDesc roles) roles ∧
        (sortRolesDesc roles).Pairwise (fun a b => rolePriority b ≤ rolePriority a) ∧
        (∀ k : Nat, (sortRolesDesc roles).filter (fun a => rolePriority a == k) =
            roles.filter (fun a => rolePriority a == k))) ∧
    (rolePriority "Founder" = 5 ∧ rolePriority "CEO" = 4 ∧ rolePriority "Executive" = 3 ∧
      rolePriority "Operations Head" = 2 ∧ rolePriority "Finance Head" = 2) ∧
    extractContactFromLinkedIn "https://www.linkedin.com/in/jordan-lee-founder-ceo/" "Acme" =
      [{ firstName := "Jordan", lastName := some "Lee", fullName := "Jordan Lee",
         role := "Founder & CEO", company := "Acme",
         source := "https://www.linkedin.com/in/jordan-lee-founder-ceo/" }] := by
  refine ⟨fun url company p hp => ?_, fun roles => ⟨?_, ?_, fun k => sortRolesDesc_filter_prio roles k⟩,
    by decide, by decide⟩
  · simp only [extractContactFromLinkedIn] at hp
    by_cases h1 : strIsEmpty url = true
    · simp [h1] at hp
    · simp only [Bool.not_eq_true] at h1
      simp only [h1, Bool.false_eq_true, if_false] at hp
      by_cases h2 : strIsEmpty (trimStr url) = true
      · simp [h2] at hp
      · simp only [Bool.not_eq_true] at h2
        simp only [h2, Bool.false_eq_true, if_false] at hp
        by_cases h3 : (rolesAndNames (tokensOf (slugOf (trimStr url)))).2.isEmpty = true
        · simp [h3] at hp
        · simp only [Bool.not_eq_true] at h3
          simp only [h3, Bool.false_eq_true, if_false] at hp
          cases hsp : splitNameTokens (rolesAndNames (tokensOf (slugOf (trimStr url)))).2 with
          | mk fst lst =>
            rw [hsp] at hp
            cases fst with
            | none => simp at hp
            | some f =>
              simp only [List.mem_singleton] at hp
              rw [hp]
  · exact List.perm_insertionSort _ roles
  · haveI : IsTotal String (fun a b => rolePriority b ≤ rolePriority a) :=
      ⟨fun a b => Nat.le_total (rolePriority b) (rolePriority a)⟩
    haveI : IsTrans String (fun a b => rolePriority b ≤ rolePriority a) :=
      ⟨fun a b c hab hbc => Nat.le_trans hbc hab⟩
    exact List.sorted_insertionSort _ roles

/-! ## Claim C2 -/

theorem append_cons_inj {α : Type} {x : α} :
    ∀ a₁ a₂ b₁ b₂ : List α, a₁ ++ x :: b₁ = a₂ ++ x :: b₂ → x ∉ b₁ → x ∉ b₂ →
      a₁ = a₂ ∧ b₁ = b₂ := by
  intro a₁
  induction a₁ with
  | nil =>
    intro a₂ b₁ b₂ h hb₁ hb₂
    cases a₂ with
    | nil =>
      simp only [List.nil_append, List.cons.injEq] at h
      exact ⟨rfl, h.2⟩
    | cons c t =>
      simp only [List.nil_append, List.cons_append, List.cons.injEq] at h
      exact absurd (h.2 ▸ List.mem_append_right t (List.mem_cons_self x b₂)) hb₁
  | cons c t ih =>
    intro a₂ b₁ b₂ h hb₁ hb₂
    cases a₂ with
    | nil =>
      simp only [List.nil_append, List.cons_append, List.cons.injEq] at h
      exact absurd (h.2.symm ▸ List.mem_append_right t (List.mem_cons_self x b₁)) hb₂
    | cons c' t' =>
      simp only [List.cons_append, List.cons.injEq] at h
      obtain ⟨ht, hb⟩ := ih t' b₁ b₂ h.2 hb₁ hb₂
      exact ⟨by rw [h.1, ht], hb⟩

theorem samePair_trans {a b c : ContactResult} (h1 : samePair a b = true)
    (h2 : samePair b c = true) : samePair a c = true := by
  simp only [samePair, Bool.and_eq_true, decide_eq_true_eq] at h1 h2 ⊢
  exact ⟨h1.1.trans h2.1, h1.2.trans h2.2⟩

theorem sigOf_eq_iff {r1 r2 : ContactResult} (h1 : EmittedShape r1) (h2 : EmittedShape r2) :
    sigOf r1 = sigOf r2 ↔ samePair r1 r2 = true := by
  obtain ⟨l1, d1, he1, hl1at, hl1dash, hd1⟩ := h1
  obtain ⟨l2, d2, he2, hl2at, hl2dash, hd2⟩ := h2
  constructor
  · intro h
    have hd : (sigOf r1).data = (sigOf r2).data := congrArg String.data h
    simp only [sigOf, String.data_append,
      show ("-" : String).data = ['-'] from rfl, List.append_assoc,
      List.singleton_append] at hd
    rw [he1, he2] at hd
    have hd' : ((lowerStr r1.company).data ++ '-' :: l1) ++ '@' :: d1 =
        ((lowerStr r2.company).data ++ '-' :: l2) ++ '@' :: d2 := by
      simpa [List.append_assoc] using hd
    obtain ⟨hcl, hdd⟩ := append_cons_inj _ _ _ _ hd' hd1 hd2
    obtain ⟨hc, hl⟩ := append_cons_inj _ _ _ _ hcl hl1dash hl2dash
    have hcomp : lowerStr r1.company = lowerStr r2.company := String.ext hc
    have hemail : lowerStr r1.email = lowerStr r2.email := by
      apply String.ext
      rw [he1, he2, hl, hdd]
    simp [samePair, hcomp, hemail]
  · intro h
    simp only [samePair, Bool.and_eq_true, decide_eq_true_eq] at h
    simp [sigOf, h.1, h.2]

theorem dedupAux_sublist : ∀ (seen : List String) (rs : List ContactResult),
    List.Sublist (dedupAux seen rs) rs := by
  intro seen rs
  induction rs generalizing seen with
  | nil => exact List.Sublist.refl []
  | cons r t ih =>
    unfold dedupAux
    by_cases hc : seen.contains (sigOf r) = true
    · rw [if_pos hc]
      exact List.Sublist.trans (ih seen) (List.sublist_cons_self r t)
    · rw [if_neg hc]
      exact List.Sublist.cons₂ r (ih (sigOf r :: seen))

theorem beq_sig_eq_samePair {r r' : ContactResult} (hr : EmittedShape r)
    (hr' : EmittedShape r') : (sigOf r' == sigOf r) = samePair r r' := by
  by_cases h : sigOf r = sigOf r'
  · rw [h]
    simp only [beq_self_eq_true]
    exact ((sigOf_eq_iff hr hr').mp h).symm
  · have h1 : (sigOf r' == sigOf r) = false := by
      simp only [beq_eq_false_iff_ne, ne_eq]
      exact fun he => h he.symm
    rw [h1]
    cases hsp : samePair r r' with
    | false => rfl
    | true => exact absurd ((sigOf_eq_iff hr hr').mpr hsp) h

theorem dedupAux_eq_spec :
    ∀ (rs : List ContactResult) (seen : List String) (prev : List ContactResult),
      (∀ r ∈ rs, EmittedShape r) →
      (∀ r ∈ rs, seen.contains (sigOf r) = prev.any (fun x => samePair x r)) →
      dedupAux seen rs = specDedupAux prev rs := by
  intro rs
  induction rs with
  | nil => intro seen prev _ _; rfl
  | cons r t ih =>
    intro seen prev hshape hinv
    have hr : EmittedShape r := hshape r (List.mem_cons_self r t)
    have hrinv := hinv r (List.mem_cons_self r t)
    have hshapes : ∀ r' ∈ t, EmittedShape r' :=
      fun r' hr' => hshape r' (List.mem_cons_of_mem r hr')
    unfold dedupAux specDedupAux
    by_cases hc : seen.contains (sigOf r) = true
    · have hany : prev.any (fun x => samePair x r) = true := by rw [← hrinv]; exact hc
      rw [if_pos hc, if_pos hany]
      apply ih seen (prev ++ [r]) hshapes
      intro r' hr'
      have hshape' : EmittedShape r' := hshapes r' hr'
      rw [hinv r' (List.mem_cons_of_mem r hr'), List.any_append]
      simp only [List.any_cons, List.any_nil, Bool.or_false]
      cases hsp : samePair r r' with
      | false => simp
      | true =>
        obtain ⟨x, hx, hxr⟩ := List.any_eq_true.mp hany
        have : prev.any (fun y => samePair y r') = true :=
          List.any_eq_true.mpr ⟨x, hx, samePair_trans hxr hsp⟩
        simp [this]
    · have hany : prev.any (fun x => samePair x r) = false := by
        rw [← hrinv]
        simpa using hc
      rw [if_neg hc, if_neg (by simp [hany])]
      congr 1
      apply ih (sigOf r :: seen) (prev ++ [r]) hshapes
      intro r' hr'
      have hshape' : EmittedShape r' := hshapes r' hr'
      rw [List.contains_cons, List.any_append, hinv r' (List.mem_cons_of_mem r hr'),
        beq_sig_eq_samePair hr hshape']
      simp only [List.any_cons, List.any_nil, Bool.or_false]
      exact Bool.or_comm _ _

/-- Claim C2: over a batch of emitted contact results (whose emails have the
shape produced by `buildEmail`), deduplication removes a result exactly when
some earlier result of the batch has the same company and email
case-insensitively, and the survivors keep their original relative order. -/
theorem claim_C2 :
    (∀ rs : List ContactResult, (∀ r ∈ rs, EmittedShape r) →
        deduplicateResults rs = specDedup rs) ∧
    (∀ rs : List ContactResult, List.Sublist (deduplicateResults rs) rs) := by
  constructor
  · intro rs hshape
    exact dedupAux_eq_spec rs [] [] hshape (by intro r _; rfl)
  · intro rs
    exact dedupAux_sublist [] rs

/-- Witness for claim C2: a three-row batch whose second row duplicates the
first up to letter case collapses to its first and third rows. -/
theorem claim_C2_witness :
    (∀ r ∈ [ContactResult.mk "n" "r" "Acme" "jordan.lee@acme.io" Confidence.high "s",
        ContactResult.mk "n2" "r2" "ACME" "JORDAN.LEE@ACME.IO" Confidence.low "s2",
        ContactResult.mk "n3" "r3" "Acme" "sam.ray@acme.io" Confidence.high "s3"],
      EmittedShape r) ∧
    deduplicateResults
        [ContactResult.mk "n" "r" "Acme" "jordan.lee@acme.io" Confidence.high "s",
         ContactResult.mk "n2" "r2" "ACME" "JORDAN.LEE@ACME.IO" Confidence.low "s2",
         ContactResult.mk "n3" "r3" "Acme" "sam.ray@acme.io" Confidence.high "s3"] =
      specDedup
        [ContactResult.mk "n" "r" "Acme" "jordan.lee@acme.io" Confidence.high "s",
         ContactResult.mk "n2" "r2" "ACME" "JORDAN.LEE@ACME.IO" Confidence.low "s2",
         ContactResult.mk "n3" "r3" "Acme" "sam.ray@acme.io" Confidence.high "s3"] ∧
    deduplicateResults
        [ContactResult.mk "n" "r" "Acme" "jordan.lee@acme.io" Confidence.high "s",
         ContactResult.mk "n2" "r2" "ACME" "JORDAN.LEE@ACME.IO" Confidence.low "s2",
         ContactResult.mk "n3" "r3" "Acme" "sam.ray@acme.io" Confidence.high "s3"] =
      [ContactResult.mk "n" "r" "Acme" "jordan.lee@acme.io" Confidence.high "s",
       ContactResult.mk "n3" "r3" "Acme" "sam.ray@acme.io" Confidence.high "s3"] := by
  have hs : ∀ r ∈ [ContactResult.mk "n" "r" "Acme" "jordan.lee@acme.io" Confidence.high "s",
      ContactResult.mk "n2" "r2" "ACME" "JORDAN.LEE@ACME.IO" Confidence.low "s2",
      ContactResult.mk "n3" "r3" "Acme" "sam.ray@acme.io" Confidence.high "s3"],
      EmittedShape r := by
    intro r hrm
    simp only [List.mem_cons, List.not_mem_nil, or_false] at hrm
    rcases hrm with rfl | rfl | rfl
    · exact ⟨"jordan.lee".data, "acme.io".data, by decide, by decide, by decide, by decide⟩
    · exact ⟨"jordan.lee".data, "acme.io".data, by decide, by decide, by decide, by decide⟩
    · exact ⟨"sam.ray".data, "acme.io".data, by decide, by decide, by decide, by decide⟩
  exact ⟨hs, claim_C2.1 _ hs, by decide⟩

/-! ## Claim C4 -/

theorem foldl_match_filterMap (es : List String) :
    ∀ m : List (Pattern × Nat),
      es.foldl
        (fun m e =>
          match inferPattern (localOf e) with
          | none => m
          | some p => bumpScore m p (PATTERN_PRIORITY p)) m =
      (classifiedOf es).foldl (fun m p => bumpScore m p (PATTERN_PRIORITY p)) m := by
  induction es with
  | nil => intro m; rfl
  | cons e t ih =>
    intro m
    simp only [List.foldl_cons, classifiedOf, List.filterMap_cons]
    cases h : inferPattern (localOf e) with
    | none =>
      simp only [h]
      exact ih m
    | some p =>
      simp only [h, List.foldl_cons]
      exact ih (bumpScore m p (PATTERN_PRIORITY p))

theorem bumpScore_not_mem (p : Pattern) (w : Nat) :
    ∀ m : List (Pattern × Nat), p ∉ m.map Prod.fst → bumpScore m p w = m ++ [(p, w)] := by
  intro m
  induction m with
  | nil => intro _; rfl
  | cons kv t ih =>
    intro h
    obtain ⟨q, s⟩ := kv
    simp only [List.map_cons, List.mem_cons] at h
    push_neg at h
    unfold bumpScore
    rw [if_neg fun hq => h.1 hq.symm]
    rw [List.cons_append]
    exact congrArg _ (ih h.2)

theorem bumpScore_mem (p : Pattern) (w : Nat) :
    ∀ m : List (Pattern × Nat), (m.map Prod.fst).Nodup → p ∈ m.map Prod.fst →
      bumpScore m p w = m.map (fun kv => if kv.1 = p then (kv.1, kv.2 + w) else kv) := by
  intro m
  induction m with
  | nil => intro _ h; simp at h
  | cons kv t ih =>
    intro hnd hmem
    obtain ⟨q, s⟩ := kv
    simp only [List.map_cons, List.nodup_cons] at hnd
    unfold bumpScore
    by_cases hq : q = p
    · subst hq
      rw [if_pos rfl]
      simp only [if_pos rfl, List.map_cons]
      congr 1
      have hid : ∀ kv ∈ t, (if (kv : Pattern × Nat).1 = q then (kv.1, kv.2 + w) else kv) = kv := by
        intro kv hkv
        have hne : kv.1 ≠ q := by
          intro he
          exact hnd.1 (he ▸ List.mem_map_of_mem Prod.fst hkv)
        rw [if_neg hne]
      rw [List.map_congr_left hid]
      simp
    · rw [if_neg hq]
      simp only [List.map_cons, if_neg hq]
      congr 1
      apply ih hnd.2
      rcases List.mem_cons.mp hmem with h | h
      · exact absurd h.symm hq
      · exact h

theorem map_fst_update (p : Pattern) (w : Nat) (m : List (Pattern × Nat)) :
    (m.map (fun kv => if kv.1 = p then (kv.1, kv.2 + w) else kv)).map Prod.fst =
      m.map Prod.fst := by
  rw [List.map_map]
  apply List.map_congr_left
  intro kv _
  by_cases h : kv.1 = p <;> simp [Function.comp, h]

theorem dedupFirstAux_congr :
    ∀ (l s1 s2 : List Pattern), (∀ q, s1.contains q = s2.contains q) →
      dedupFirstAux s1 l = dedupFirstAux s2 l := by
  intro l
  induction l with
  | nil => intro _ _ _; rfl
  | cons p t ih =>
    intro s1 s2 h
    unfold dedupFirstAux
    rw [h p]
    by_cases hc : s2.contains p = true
    · rw [if_pos hc, if_pos hc]
      exact ih s1 s2 h
    · rw [if_neg hc, if_neg hc]
      congr 1
      apply ih (p :: s1) (p :: s2)
      intro q
      simp only [List.contains_cons]
      rw [h q]

theorem mem_dedupFirstAux_not_seen :
    ∀ (l seen : List Pattern) (q : Pattern), q ∈ dedupFirstAux seen l →
      seen.contains q = false := by
  intro l
  induction l with
  | nil => intro seen q h; simp [dedupFirstAux] at h
  | cons p t ih =>
    intro seen q h
    unfold dedupFirstAux at h
    by_cases hc : seen.contains p = true
    · rw [if_pos hc] at h
      exact ih seen q h
    · rw [if_neg hc] at h
      rcases List.mem_cons.mp h with rfl | h2
      · simpa using hc
      · have h3 := ih (p :: seen) q h2
        simp only [List.contains_cons, Bool.or_eq_false_iff] at h3
        exact h3.2

theorem foldl_bump_closed :
    ∀ (ps : List Pattern) (m : List (Pattern × Nat)), (m.map Prod.fst).Nodup →
      ps.foldl (fun m p => bumpScore m p (PATTERN_PRIORITY p)) m =
        m.map (fun kv => (kv.1, kv.2 + PATTERN_PRIORITY kv.1 * ps.count kv.1)) ++
          (dedupFirstAux (m.map Prod.fst) ps).map
            (fun p => (p, PATTERN_PRIORITY p * ps.count p)) := by
  intro ps
  induction ps with
  | nil =>
    intro m _
    simp [dedupFirstAux]
  | cons p t ih =>
    intro m hnd
    rw [List.foldl_cons]
    by_cases hp : p ∈ m.map Prod.fst
    · have hcontains : (m.map Prod.fst).contains p = true := by simpa using hp
      rw [bumpScore_mem p _ m hnd hp]
      rw [ih _ (by rw [map_fst_update]; exact hnd)]
      rw [map_fst_update]
      congr 1
      · rw [List.map_map]
        apply List.map_congr_left
        intro kv _
        by_cases hkv : kv.1 = p
        · simp only [Function.comp_def, hkv, if_pos rfl, List.count_cons, beq_self_eq_true,
            if_true]
          refine congrArg _ ?_
          ring
        · have hbeq : (p == kv.1) = false := by
            simp only [beq_eq_false_iff_ne, ne_eq]
            exact fun he => hkv he.symm
          simp [Function.comp_def, hkv, List.count_cons, hbeq]
      · have h0 : dedupFirstAux (m.map Prod.fst) (p :: t) =
            if (m.map Prod.fst).contains p = true then dedupFirstAux (m.map Prod.fst) t
            else p :: dedupFirstAux (p :: m.map Prod.fst) t := rfl
        rw [h0, if_pos hcontains]
        apply List.map_congr_left
        intro q hq
        have hqp : (p == q) = false := by
          have h3 := mem_dedupFirstAux_not_seen t (m.map Prod.fst) q hq
          simp only [beq_eq_false_iff_ne, ne_eq]
          intro he
          rw [← he] at h3
          rw [h3] at hcontains
          exact Bool.false_ne_true hcontains
        simp [List.count_cons, hqp]
    · have hcontains : (m.map Prod.fst).contains p = false := by simpa using hp
      rw [bumpScore_not_mem p _ m hp]
      have hnd2 : ((m ++ [(p, PATTERN_PRIORITY p)]).map Prod.fst).Nodup := by
        rw [List.map_append]
        simp only [List.map_cons, List.map_nil]
        rw [List.nodup_append]
        refine ⟨hnd, List.nodup_singleton p, ?_⟩
        intro a ha hb
        simp only [List.mem_singleton] at hb
        exact hp (hb ▸ ha)
      rw [ih _ hnd2]
      have h0 : dedupFirstAux (m.map Prod.fst) (p :: t) =
          if (m.map Prod.fst).contains p = true then dedupFirstAux (m.map Prod.fst) t
          else p :: dedupFirstAux (p :: m.map Prod.fst) t := rfl
      rw [h0, if_neg (fun hh => absurd (hcontains.symm.trans hh) Bool.false_ne_true)]
      simp only [List.map_append, List.map_cons, List.map_nil]
      have hm : m.map (fun kv => (kv.1, kv.2 + PATTERN_PRIORITY kv.1 * t.count kv.1)) =
          m.map (fun kv => (kv.1, kv.2 + PATTERN_PRIORITY kv.1 * (p :: t).count kv.1)) := by
        apply List.map_congr_left
        intro kv hkv
        have hne : (p == kv.1) = false := by
          simp only [beq_eq_false_iff_ne, ne_eq]
          intro he
          exact hp (he ▸ List.mem_map_of_mem Prod.fst hkv)
        simp [List.count_cons, hne]
      have hcontapp : ∀ q : Pattern, (m.map Prod.fst ++ [p]).contains q =
          (q == p || (m.map Prod.fst).contains q) := by
        intro q
        cases hq : (q == p) with
        | true =>
          have : q = p := eq_of_beq hq
          subst this
          simp
        | false =>
          have hne : q ≠ p := by
            intro he
            rw [he] at hq
            simp at hq
          simp [hq, List.mem_append, hne]
      have hseen : dedupFirstAux (m.map Prod.fst ++ [p]) t =
          dedupFirstAux (p :: m.map Prod.fst) t := by
        apply dedupFirstAux_congr
        intro q
        rw [hcontapp q]
        simp [List.contains_cons]
      have hval : (dedupFirstAux (p :: m.map Prod.fst) t).map
            (fun q => (q, PATTERN_PRIORITY q * t.count q)) =
          (dedupFirstAux (p :: m.map Prod.fst) t).map
            (fun q => (q, PATTERN_PRIORITY q * (p :: t).count q)) := by
        apply List.map_congr_left
        intro q hq
        have h3 := mem_dedupFirstAux_not_seen t (p :: m.map Prod.fst) q hq
        simp only [List.contains_cons, Bool.or_eq_false_iff] at h3
        have hne : (p == q) = false := by
          simp only [beq_eq_false_iff_ne, ne_eq]
          intro he
          subst he
          simp at h3
        simp [List.count_cons, hne]
      rw [hm, hseen, hval]
      have hhead : (p, PATTERN_PRIORITY p + PATTERN_PRIORITY p * t.count p) =
          (p, PATTERN_PRIORITY p * (p :: t).count p) := by
        simp only [List.count_cons, beq_self_eq_true, if_true]
        refine congrArg _ ?_
        ring
      rw [List.append_assoc, List.singleton_append, hhead]

theorem firstMax_cons (b kv : Pattern × Nat) (rest : List (Pattern × Nat)) :
    (b :: kv :: rest).find? (fun x => (b :: kv :: rest).all (fun y => y.2 ≤ x.2)) =
      if kv.2 > b.2 then
        (kv :: rest).find? (fun x => (kv :: rest).all (fun y => y.2 ≤ x.2))
      else (b :: rest).find? (fun x => (b :: rest).all (fun y => y.2 ≤ x.2)) := by
  by_cases hgt : kv.2 > b.2
  · rw [if_pos hgt]
    have hfun : (fun (x : Pattern × Nat) => (b :: kv :: rest).all (fun y => y.2 ≤ x.2)) =
        (fun x => (kv :: rest).all (fun y => y.2 ≤ x.2)) := by
      funext x
      simp only [List.all_cons]
      cases hB : decide (kv.2 ≤ x.2) with
      | false => simp [hB]
      | true =>
        have hkx : kv.2 ≤ x.2 := of_decide_eq_true hB
        have hb : decide (b.2 ≤ x.2) = true := decide_eq_true (by omega)
        simp [hB, hb]
    rw [hfun]
    have hpb : (kv :: rest).all (fun y => y.2 ≤ b.2) = false := by
      simp only [List.all_cons]
      rw [decide_eq_false (by omega)]
      rfl
    rw [@List.find?_cons_of_neg _ (fun x => (kv :: rest).all (fun y => y.2 ≤ x.2)) b
      (kv :: rest) (by simp [hpb])]
  · rw [if_neg hgt]
    have hle : kv.2 ≤ b.2 := by omega
    have hfun : (fun (x : Pattern × Nat) => (b :: kv :: rest).all (fun y => y.2 ≤ x.2)) =
        (fun x => (b :: rest).all (fun y => y.2 ≤ x.2)) := by
      funext x
      simp only [List.all_cons]
      cases hbx : decide (b.2 ≤ x.2) with
      | false => simp [hbx]
      | true =>
        have hkx : decide (kv.2 ≤ x.2) = true :=
          decide_eq_true (Nat.le_trans hle (of_decide_eq_true hbx))
        simp [hbx, hkx]
    rw [hfun]
    cases hpb : (b :: rest).all (fun y => y.2 ≤ b.2) with
    | true =>
      rw [@List.find?_cons_of_pos _ (fun x => (b :: rest).all (fun y => y.2 ≤ x.2)) b
        (kv :: rest) hpb,
        @List.find?_cons_of_pos _ (fun x => (b :: rest).all (fun y => y.2 ≤ x.2)) b rest hpb]
    | false =>
      have hpkv : (b :: rest).all (fun y => y.2 ≤ kv.2) = false := by
        cases hbk : decide (b.2 ≤ kv.2) with
        | false => simp [List.all_cons, hbk]
        | true =>
          have hbe : b.2 = kv.2 := Nat.le_antisymm (of_decide_eq_true hbk) hle
          rw [← hbe]
          exact hpb
      rw [@List.find?_cons_of_neg _ (fun x => (b :: rest).all (fun y => y.2 ≤ x.2)) b
        (kv :: rest) (by simp [hpb]),
        @List.find?_cons_of_neg _ (fun x => (b :: rest).all (fun y => y.2 ≤ x.2)) kv
          rest (by simp [hpkv]),
        @List.find?_cons_of_neg _ (fun x => (b :: rest).all (fun y => y.2 ≤ x.2)) b
          rest (by simp [hpb])]

theorem scanStep_go :
    ∀ (t : List (Pattern × Nat)) (b : Pattern × Nat),
      t.foldl scanStep (some b) =
        (b :: t).find? (fun x => (b :: t).all (fun y => y.2 ≤ x.2)) := by
  intro t
  induction t with
  | nil =>
    intro b
    have hpb : ([b] : List (Pattern × Nat)).all (fun y => y.2 ≤ b.2) = true := by
      simp
    rw [List.foldl_nil,
      @List.find?_cons_of_pos _ (fun x => [b].all (fun y => y.2 ≤ x.2)) b [] hpb]
  | cons kv rest ih =>
    intro b
    rw [List.foldl_cons,
      show scanStep (some b) kv = if kv.2 > b.2 then some kv else some b from rfl,
      firstMax_cons]
    by_cases h : kv.2 > b.2
    · rw [if_pos h, if_pos h, ih kv]
    · rw [if_neg h, if_neg h, ih b]

theorem scanBest_eq_firstMax (m : List (Pattern × Nat)) :
    scanBest m = (m.find? (fun kv => m.all (fun kv2 => kv2.2 ≤ kv.2))).map Prod.fst := by
  cases m with
  | nil => rfl
  | cons b t =>
    unfold scanBest
    rw [List.foldl_cons, show scanStep none b = some b from rfl, scanStep_go t b]

theorem all_map_general {α β : Type} (f : α → β) (p : β → Bool) :
    ∀ l : List α, (l.map f).all p = l.all (fun a => p (f a)) := by
  intro l
  induction l with
  | nil => rfl
  | cons a t ih => simp only [List.map_cons, List.all_cons, ih]

theorem selectPattern_eq_specSelect (emails : List String) :
    selectPattern emails = specSelect emails := by
  have h1 : buildScores emails =
      (dedupFirstAux [] (classifiedOf emails)).map
        (fun p => (p, PATTERN_PRIORITY p * (classifiedOf emails).count p)) := by
    unfold buildScores
    rw [foldl_match_filterMap]
    rw [foldl_bump_closed (classifiedOf emails) [] (by simp)]
    simp
  unfold selectPattern specSelect
  rw [h1, scanBest_eq_firstMax, List.find?_map, Option.map_map]
  have hmapid : ∀ o : Option Pattern,
      Option.map (Prod.fst ∘ fun p : Pattern =>
        (p, PATTERN_PRIORITY p * (classifiedOf emails).count p)) o = o := by
    intro o
    cases o <;> rfl
  rw [hmapid]
  refine congrArg (fun pr => List.find? pr (dedupFirstAux [] (classifiedOf emails))) ?_
  funext x
  simp only [Function.comp_def]
  rw [all_map_general]
  simp [totalScore, Function.comp_def]

/-- Claim C4: for every batch of classified addresses, the selected pattern
maximizes the total score (the fixed weight first.last=5, firstlast=4,
firstinitial.last=3, first.lastinitial=3, first=2, added once per matching
address), ties broken in favour of the first pattern to reach that maximum
(strict greater-than against the running best), as stated by `specSelect`;
page text containing `jordan.lee@acme.io` and `sam.ray@acme.io` and nothing
else on domain `acme.io` yields pattern first.last with confidence high. -/
theorem claim_C4 :
    (∀ emails : List String, selectPattern emails = specSelect emails) ∧
    (PATTERN_PRIORITY Pattern.firstDotLast = 5 ∧ PATTERN_PRIORITY Pattern.firstlast = 4 ∧
      PATTERN_PRIORITY Pattern.firstInitialDotLast = 3 ∧
      PATTERN_PRIORITY Pattern.firstDotLastInitial = 3 ∧
      PATTERN_PRIORITY Pattern.first = 2) ∧
    discoverPattern (fun _ => some "jordan.lee@acme.io sam.ray@acme.io") "acme.io" =
      ⟨some Pattern.firstDotLast, Confidence.high, "https://acme.io"⟩ :=
  ⟨selectPattern_eq_specSelect, by decide, by decide⟩

/-- Witness for claim C6: the produced person of the
`jordan-lee-founder-ceo` reference carries the priority-sorted role join. -/
theorem claim_C6_witness :
    (Person.mk "Jordan" (some "Lee") "Jordan Lee" "Founder & CEO" "Acme"
        "https://www.linkedin.com/in/jordan-lee-founder-ceo/") ∈
      extractContactFromLinkedIn "https://www.linkedin.com/in/jordan-lee-founder-ceo/" "Acme" ∧
    (Person.mk "Jordan" (some "Lee") "Jordan Lee" "Founder & CEO" "Acme"
        "https://www.linkedin.com/in/jordan-lee-founder-ceo/").role =
      roleStringOf (rolesAndNames (tokensOf (slugOf
        (trimStr "https://www.linkedin.com/in/jordan-lee-founder-ceo/")))).1 := by
  have hm : (Person.mk "Jordan" (some "Lee") "Jordan Lee" "Founder & CEO" "Acme"
      "https://www.linkedin.com/in/jordan-lee-founder-ceo/") ∈
      extractContactFromLinkedIn "https://www.linkedin.com/in/jordan-lee-founder-ceo/"
        "Acme" := by decide
  exact ⟨hm, claim_C6.1 "https://www.linkedin.com/in/jordan-lee-founder-ceo/" "Acme" _ hm⟩

/-- Witness for claim C7: a two-part pattern with a person who has no last
name produces no email. -/
theorem claim_C7_witness :
    Pattern.firstlast ≠ Pattern.first ∧
    buildEmail (Person.mk "Jordan" none "Jordan" "" "" "") "acme.io" Pattern.firstlast =
      none :=
  ⟨by decide, claim_C7.2.2.2.2 Pattern.firstlast (by decide)⟩

end ContactRoute
